import Mathlib

/-! Verification of the fping probe plugin (`vaping/plugins/fping.py`).

Strings are modelled as `List Char`; Python `str` operations used by the
source (`str.split " : "`, `str.split " "`, `str.split()`, `str.strip`,
`float(...)`) are embedded as executable Lean functions with Python's
semantics.  Latency values are modelled as rationals: `float(...)` is
embedded as an exact decimal parser (optionally signed integer or decimal
literal, with Python's tolerance for surrounding whitespace; the exotic
`float` inputs `inf`, `nan`, exponents and underscore separators never
occur in fping output and are not modelled).  Fallible code returns
`Option`; a raised exception that escapes a function is an `Except.error`.
-/

/-- The separator `" : "` that `parse_verbose` splits on. -/
def sepL : List Char := [' ', ':', ' ']

/-- Python `str` whitespace (the characters stripped by `str.strip()` and
separating tokens for `str.split()`). -/
def pyWs (c : Char) : Bool :=
  c = ' ' || c = '\t' || c = '\n' || c = '\r' || c = '\x0b' || c = '\x0c'

/-- Embedding of Python `str.strip()`: drop whitespace from both ends. -/
def pyStrip (s : List Char) : List Char :=
  ((s.dropWhile pyWs).reverse.dropWhile pyWs).reverse

/-- ASCII decimal digit. -/
def pyDigit (c : Char) : Bool :=
  ['0', '1', '2', '3', '4', '5', '6', '7', '8', '9'].contains c

/-- Numeric value of a digit character. -/
def digitVal (c : Char) : Nat := c.toNat - 48

/-- Value of a digit string read in base 10. -/
def digitsToNat (ds : List Char) : Nat :=
  ds.foldl (fun a c => 10 * a + digitVal c) 0

/-- Unsigned part of Python `float(...)` on an already stripped string:
digits, optionally followed by a point and further digits (`"5"`, `"5."`,
`".5"`, `"1.25"`); anything else fails. -/
def parseUnsigned (s : List Char) : Option ℚ :=
  match s.dropWhile pyDigit with
  | [] =>
    if (s.takeWhile pyDigit).isEmpty then none
    else some (digitsToNat (s.takeWhile pyDigit) : ℚ)
  | '.' :: frac =>
    if frac.all pyDigit then
      if (s.takeWhile pyDigit).isEmpty && frac.isEmpty then none
      else some ((digitsToNat (s.takeWhile pyDigit) : ℚ)
        + (digitsToNat frac : ℚ) / (10 : ℚ) ^ frac.length)
    else none
  | _ => none

/-- Embedding of Python `float(token)` as used on latency tokens:
strip surrounding whitespace, then an optionally signed decimal literal.
Returns `none` where Python raises `ValueError`. -/
def pyFloat (t : List Char) : Option ℚ :=
  match pyStrip t with
  | '+' :: r => parseUnsigned r
  | '-' :: r => (parseUnsigned r).map (fun q => -q)
  | s => parseUnsigned s

/-- Cons a character onto the first piece of a split result (helper for the
leftmost-first scanning of Python `str.split`). -/
def headCons (c : Char) : List (List Char) → List (List Char)
  | t :: ts => (c :: t) :: ts
  | [] => [[c]]

/-- Embedding of Python `line.split(" : ")`: split on every non-overlapping
occurrence of the three-character separator, scanning left to right. -/
def splitColon : List Char → List (List Char)
  | [] => [[]]
  | [c] => [[c]]
  | [c, d] => headCons c (headCons d [[]])
  | c :: d :: e :: rest =>
    if c = ' ' ∧ d = ':' ∧ e = ' ' then [] :: splitColon rest
    else headCons c (splitColon (d :: e :: rest))

/-- Embedding of Python `s.split(" ")`: split on every single space,
keeping empty pieces (`"a  b".split(" ") == ["a", "", "b"]`). -/
def splitSpace : List Char → List (List Char)
  | [] => [[]]
  | c :: rest =>
    if c = ' ' then [] :: splitSpace rest
    else headCons c (splitSpace rest)

/-- Worker for Python `s.split()` (no argument): `acc` is the reversed
current token. -/
def splitWsAux : List Char → List Char → List (List Char)
  | [], acc => if acc.isEmpty then [] else [acc.reverse]
  | c :: rest, acc =>
    if pyWs c then
      if acc.isEmpty then splitWsAux rest []
      else acc.reverse :: splitWsAux rest []
    else splitWsAux rest (c :: acc)

/-- Embedding of Python `s.split()`: split on runs of whitespace, dropping
empty pieces. -/
def splitWs (s : List Char) : List (List Char) := splitWsAux s []

/-- Inverse of `splitSpace`: re-join pieces with a single space. -/
def joinSpace : List (List Char) → List Char
  | [] => []
  | [t] => t
  | t :: ts => t ++ ' ' :: joinSpace ts

/-- Inverse of `splitColon`: re-join pieces with the `" : "` separator.
`joinColon (p :: rest)` is what Python `line.split(" : ", 1)[1]` would
return, i.e. everything after the first separator occurrence. -/
def joinColon : List (List Char) → List Char
  | [] => []
  | [t] => t
  | t :: ts => t ++ ' ' :: ':' :: ' ' :: joinColon ts

/-- The loop of `parse_verbose` over the token list: sentinel `"-"` tokens
are skipped, every other token must parse as a float; a failing token
raises `ValueError`, aborting the whole line (`none`). -/
def collectTimes : List (List Char) → Option (List ℚ)
  | [] => some []
  | t :: rest =>
    if t = ['-'] then collectTimes rest
    else
      match pyFloat t with
      | none => none
      | some q =>
        match collectTimes rest with
        | none => none
        | some qs => some (q :: qs)

/-- The dict returned by `FPingBase.parse_verbose` for one line.  The keys
`min`/`max`/`avg`/`last` are set only when `data` is non-empty, hence
`Option`. -/
structure ProbeResult where
  host : List Char
  cnt : Nat
  loss : ℚ
  data : List ℚ
  min : Option ℚ
  max : Option ℚ
  avg : Option ℚ
  last : Option ℚ
deriving DecidableEq

/-- Body of `parse_verbose` after the line has been split into host part
and token list: mirrors the Python statements computing `cnt`, `times`,
`lost`, `loss` and the result dict (with `min(times)`, `max(times)`,
`sum(times)/len(times)` and `times[-1]` embedded as the corresponding
fold/last operations). -/
def buildRecord (host : List Char) (pings : List (List Char)) : Option ProbeResult :=
  match collectTimes pings with
  | none => none
  | some times =>
    some
      { host := pyStrip host
        cnt := pings.length
        loss := if pings.length - times.length ≠ 0
                then ((pings.length - times.length : Nat) : ℚ) / (pings.length : ℚ)
                else 0
        data := times
        min := match times with | [] => none | x :: xs => some (xs.foldl Min.min x)
        max := match times with | [] => none | x :: xs => some (xs.foldl Max.max x)
        avg := match times with
               | [] => none
               | _ :: _ => some (times.foldl (· + ·) 0 / (times.length : ℚ))
        last := times.getLast? }

/-- Embedding of `FPingBase.parse_verbose`: the tuple unpacking
`(host, pings) = line.split(" : ")` demands exactly two pieces (exactly one
separator occurrence); any other shape raises `ValueError`, which the
enclosing `except` turns into `None`.  The accepted shape then runs
`pings.strip().split(" ")` and builds the record. -/
def parse_verbose (line : List Char) : Option ProbeResult :=
  match splitColon line with
  | [host, pings] => buildRecord host (splitSpace (pyStrip pings))
  | _ => none

example : parse_verbose "host : 1.2 - 3.4".toList =
    some { host := "host".toList, cnt := 3, loss := 1 / 3, data := [12 / 10, 34 / 10],
           min := some (12 / 10), max := some (34 / 10), avg := some (23 / 10),
           last := some (34 / 10) } := by
  simp +decide [parse_verbose, splitColon, headCons, splitSpace, pyStrip, pyWs, buildRecord,
    collectTimes, pyFloat, parseUnsigned, pyDigit, digitsToNat, digitVal,
    List.dropWhile_cons, List.takeWhile_cons, ProbeResult.mk.injEq]
  norm_num

example : parse_verbose "host : - - -".toList =
    some { host := "host".toList, cnt := 3, loss := 1, data := [],
           min := none, max := none, avg := none, last := none } := by
  simp +decide [parse_verbose, splitColon, headCons, splitSpace, pyStrip, pyWs, buildRecord,
    collectTimes, pyFloat, parseUnsigned, pyDigit, digitsToNat, digitVal,
    List.dropWhile_cons, List.takeWhile_cons, ProbeResult.mk.injEq]

example : parse_verbose "no separator here".toList = none := by decide

example : parse_verbose "a : 1.0 : 2.0".toList = none := by decide

example : parse_verbose "h : 1.0  2.0".toList = none := by decide

/-! Lemmas about the separator split -/

theorem headCons_ne_nil (c : Char) (ts : List (List Char)) : headCons c ts ≠ [] := by
  cases ts <;> simp [headCons]

theorem headCons_length (c : Char) (ts : List (List Char)) (h : ts ≠ []) :
    (headCons c ts).length = ts.length := by
  cases ts with
  | nil => exact absurd rfl h
  | cons t ts' => simp [headCons]

theorem splitColon_ne_nil (s : List Char) : splitColon s ≠ [] := by
  induction s using splitColon.induct with
  | case1 => simp [splitColon]
  | case2 c => simp [splitColon]
  | case3 c d => simp [splitColon, headCons]
  | case4 c d e rest hsep ih => simp [splitColon, hsep]
  | case5 c d e rest hsep ih =>
    simp only [splitColon, if_neg hsep]
    exact headCons_ne_nil _ _

theorem splitColon_no_sep (s : List Char) (h : ¬ sepL <:+: s) : splitColon s = [s] := by
  induction s using splitColon.induct with
  | case1 => rfl
  | case2 c => rfl
  | case3 c d => simp [splitColon, headCons]
  | case4 c d e rest hsep ih =>
    obtain ⟨hc, hd, he⟩ := hsep
    subst hc; subst hd; subst he
    exact absurd ⟨[], rest, by simp [sepL]⟩ h
  | case5 c d e rest hsep ih =>
    have h' : ¬ sepL <:+: (d :: e :: rest) := by
      intro hin
      obtain ⟨u, v, huv⟩ := hin
      exact h ⟨c :: u, v, by simp [← huv]⟩
    simp only [splitColon, if_neg hsep, ih h', headCons]

theorem splitColon_sep_length (s : List Char) (h : sepL <:+: s) :
    2 ≤ (splitColon s).length := by
  induction s using splitColon.induct with
  | case1 =>
    obtain ⟨u, v, huv⟩ := h
    have := congrArg List.length huv
    simp [sepL] at this
  | case2 c =>
    obtain ⟨u, v, huv⟩ := h
    have := congrArg List.length huv
    simp [sepL] at this
    omega
  | case3 c d =>
    obtain ⟨u, v, huv⟩ := h
    have := congrArg List.length huv
    simp [sepL] at this
    omega
  | case4 c d e rest hsep ih =>
    simp only [splitColon, if_pos hsep, List.length_cons]
    have := List.length_pos.mpr (splitColon_ne_nil rest)
    omega
  | case5 c d e rest hsep ih =>
    have h' : sepL <:+: (d :: e :: rest) := by
      obtain ⟨u, v, huv⟩ := h
      cases u with
      | nil =>
        simp [sepL] at huv
        exact absurd ⟨huv.1.symm, huv.2.1.symm, huv.2.2.1.symm⟩ hsep
      | cons x u' =>
        simp only [List.cons_append, List.cons.injEq] at huv
        exact ⟨u', v, huv.2⟩
    simp only [splitColon, if_neg hsep]
    rw [headCons_length _ _ (splitColon_ne_nil _)]
    exact ih h'

theorem joinColon_cons (t : List Char) (ts : List (List Char)) (h : ts ≠ []) :
    joinColon (t :: ts) = t ++ ' ' :: ':' :: ' ' :: joinColon ts := by
  cases ts with
  | nil => exact absurd rfl h
  | cons u us => rfl

theorem joinColon_splitColon (s : List Char) : joinColon (splitColon s) = s := by
  induction s using splitColon.induct with
  | case1 => rfl
  | case2 c => rfl
  | case3 c d => simp [splitColon, headCons, joinColon]
  | case4 c d e rest hsep ih =>
    obtain ⟨hc, hd, he⟩ := hsep
    subst hc; subst hd; subst he
    have hs : splitColon (' ' :: ':' :: ' ' :: rest) = [] :: splitColon rest := by
      simp [splitColon]
    rw [hs, joinColon_cons _ _ (splitColon_ne_nil rest), ih]
    rfl
  | case5 c d e rest hsep ih =>
    simp only [splitColon, if_neg hsep]
    cases hsc : splitColon (d :: e :: rest) with
    | nil => exact absurd hsc (splitColon_ne_nil _)
    | cons t ts =>
      rw [hsc] at ih
      cases ts with
      | nil =>
        simp only [joinColon] at ih
        simp [headCons, joinColon, ih]
      | cons u us =>
        have hne : (u :: us : List (List Char)) ≠ [] := by simp
        rw [joinColon_cons _ (u :: us) hne] at ih
        simp only [headCons]
        rw [joinColon_cons _ (u :: us) hne]
        simpa using ih

/-! Lemmas about the single-space split -/

theorem splitSpace_ne_nil (s : List Char) : splitSpace s ≠ [] := by
  cases s with
  | nil => simp [splitSpace]
  | cons c rest =>
    simp only [splitSpace]
    split
    · simp
    · exact headCons_ne_nil _ _

theorem joinSpace_cons (t : List Char) (ts : List (List Char)) (h : ts ≠ []) :
    joinSpace (t :: ts) = t ++ ' ' :: joinSpace ts := by
  cases ts with
  | nil => exact absurd rfl h
  | cons u us => rfl

theorem joinSpace_splitSpace (s : List Char) : joinSpace (splitSpace s) = s := by
  induction s with
  | nil => rfl
  | cons c rest ih =>
    simp only [splitSpace]
    by_cases hc : c = ' '
    · rw [if_pos hc, joinSpace_cons _ _ (splitSpace_ne_nil rest), ih, hc]
      rfl
    · rw [if_neg hc]
      cases hs : splitSpace rest with
      | nil => exact absurd hs (splitSpace_ne_nil _)
      | cons t ts =>
        rw [hs] at ih
        cases ts with
        | nil =>
          simp only [joinSpace] at ih
          simp [headCons, joinSpace, ih]
        | cons u us =>
          have hne : (u :: us : List (List Char)) ≠ [] := by simp
          rw [joinSpace_cons _ (u :: us) hne] at ih
          simp only [headCons]
          rw [joinSpace_cons _ (u :: us) hne]
          simpa using ih

theorem mem_joinSpace {c : Char} {ts : List (List Char)} (h : c ∈ joinSpace ts) :
    c = ' ' ∨ ∃ t ∈ ts, c ∈ t := by
  induction ts using joinSpace.induct with
  | case1 => simp [joinSpace] at h
  | case2 t => exact Or.inr ⟨t, by simp, h⟩
  | case3 t u us ih =>
    rw [joinSpace_cons _ _ us] at h
    rcases List.mem_append.mp h with ht | hrest
    · exact Or.inr ⟨t, by simp, ht⟩
    · rcases List.mem_cons.mp hrest with hsp | hj
      · exact Or.inl hsp
      · rcases ih hj with hsp | ⟨u', hu', hc⟩
        · exact Or.inl hsp
        · exact Or.inr ⟨u', by simp [hu'], hc⟩

/-! Lemmas about the whitespace split -/

theorem splitWsAux_append_space (a : List Char) :
    ∀ (acc b : List Char), splitWsAux (a ++ ' ' :: b) acc = splitWsAux a acc ++ splitWsAux b [] := by
  induction a with
  | nil =>
    intro acc b
    cases acc with
    | nil => simp [splitWsAux, pyWs]
    | cons x xs => simp [splitWsAux, pyWs]
  | cons c a' ih =>
    intro acc b
    simp only [List.cons_append, splitWsAux]
    by_cases hc : pyWs c
    · cases acc with
      | nil => simp [hc, ih]
      | cons x xs => simp [hc, ih]
    · simp [hc, ih]

theorem splitWsAux_all_ws (s : List Char) (h : ∀ c ∈ s, pyWs c) :
    ∀ acc, splitWsAux s acc = if acc.isEmpty then [] else [acc.reverse] := by
  induction s with
  | nil => intro acc; rfl
  | cons c rest ih =>
    intro acc
    have hc : pyWs c := h c (by simp)
    have h' : ∀ x ∈ rest, pyWs x := fun x hx => h x (by simp [hx])
    cases acc with
    | nil => simp [splitWsAux, hc, ih h']
    | cons x xs => simp [splitWsAux, hc, ih h']

theorem splitWsAux_no_ws (core : List Char) (h : ∀ c ∈ core, ¬ pyWs c) :
    ∀ (acc s' : List Char), splitWsAux (core ++ s') acc = splitWsAux s' (core.reverse ++ acc) := by
  induction core with
  | nil => intro acc s'; simp
  | cons c cs ih =>
    intro acc s'
    have hc : ¬ pyWs c = true := h c (by simp)
    simp only [List.cons_append, splitWsAux, if_neg hc, List.append_eq]
    rw [ih (fun x hx => h x (by simp [hx])) (c :: acc) s']
    simp

theorem splitWsAux_ws_start (pre : List Char) (h : ∀ c ∈ pre, pyWs c) (s' : List Char) :
    splitWsAux (pre ++ s') [] = splitWsAux s' [] := by
  induction pre with
  | nil => simp
  | cons c cs ih =>
    have hc := h c (by simp)
    simp [splitWsAux, hc, ih (fun x hx => h x (by simp [hx]))]

theorem splitWsAux_ws_end (suf : List Char) (h : ∀ c ∈ suf, pyWs c) :
    ∀ (s acc : List Char), splitWsAux (s ++ suf) acc = splitWsAux s acc := by
  intro s
  induction s with
  | nil =>
    intro acc
    rw [List.nil_append]
    cases acc with
    | nil => simp [splitWsAux_all_ws suf h, splitWsAux]
    | cons x xs => simp [splitWsAux_all_ws suf h, splitWsAux]
  | cons c s' ih =>
    intro acc
    simp only [List.cons_append, splitWsAux]
    by_cases hc : pyWs c
    · cases acc <;> simp [hc, ih]
    · simp [hc, ih]

/-- Python str.strip() decomposes the string into whitespace margins around the
stripped core. -/
theorem pyStrip_decomp (t : List Char) :
    ∃ pre suf, t = pre ++ pyStrip t ++ suf ∧ (∀ c ∈ pre, pyWs c) ∧ (∀ c ∈ suf, pyWs c) := by
  refine ⟨t.takeWhile pyWs, ((t.dropWhile pyWs).reverse.takeWhile pyWs).reverse, ?_, ?_, ?_⟩
  · have hmid : t.dropWhile pyWs
        = pyStrip t ++ ((t.dropWhile pyWs).reverse.takeWhile pyWs).reverse := by
      conv_lhs => rw [← List.reverse_reverse (t.dropWhile pyWs)]
      conv_lhs =>
        rw [← List.takeWhile_append_dropWhile (p := pyWs) (l := (t.dropWhile pyWs).reverse)]
      rw [List.reverse_append]
      rfl
    rw [List.append_assoc, ← hmid, List.takeWhile_append_dropWhile]
  · exact fun c hc => List.mem_takeWhile_imp hc
  · intro c hc
    rw [List.mem_reverse] at hc
    exact List.mem_takeWhile_imp hc

/-- A character that is not whitespace survives `str.strip()`. -/
theorem mem_pyStrip_of_not_ws {c : Char} {t : List Char} (hc : c ∈ t)
    (hw : ¬ pyWs c) : c ∈ pyStrip t := by
  obtain ⟨pre, suf, ht, hpre, hsuf⟩ := pyStrip_decomp t
  rw [ht] at hc
  rcases List.mem_append.mp hc with h1 | h2
  · rcases List.mem_append.mp h1 with h1a | h1b
    · exact absurd (hpre c h1a) hw
    · exact h1b
  · exact absurd (hsuf c h2) hw

/-- A whole string consisting of whitespace margins around a non-empty
whitespace-free core splits (by `str.split()`) into exactly that core. -/
theorem splitWs_core (pre core suf : List Char) (hpre : ∀ c ∈ pre, pyWs c)
    (hsuf : ∀ c ∈ suf, pyWs c) (hne : core ≠ []) (hnw : ∀ c ∈ core, ¬ pyWs c) :
    splitWs (pre ++ core ++ suf) = [core] := by
  unfold splitWs
  rw [List.append_assoc, splitWsAux_ws_start pre hpre]
  rw [splitWsAux_no_ws core hnw [] suf]
  rw [splitWsAux_all_ws suf hsuf]
  simp [hne]

/-- A token whose stripped core is non-empty and whitespace-free is a single
`str.split()` token. -/
theorem splitWs_token (t : List Char) (hne : pyStrip t ≠ [])
    (hnw : ∀ c ∈ pyStrip t, ¬ pyWs c) : splitWs t = [pyStrip t] := by
  obtain ⟨pre, suf, ht, hpre, hsuf⟩ := pyStrip_decomp t
  conv_lhs => rw [ht]
  exact splitWs_core pre _ suf hpre hsuf hne hnw

/-- Python str.split() ignores the whitespace margins removed by `str.strip()`. -/
theorem splitWs_pyStrip (p : List Char) : splitWs (pyStrip p) = splitWs p := by
  obtain ⟨pre, suf, hp, hpre, hsuf⟩ := pyStrip_decomp p
  conv_rhs => rw [hp]
  unfold splitWs
  rw [List.append_assoc, splitWsAux_ws_start pre hpre, splitWsAux_ws_end suf hsuf]

/-- Whitespace-splitting a space-joined token list, each token being a single
`str.split()` token, yields one token per piece. -/
theorem splitWs_joinSpace_length (ts : List (List Char))
    (h : ∀ t ∈ ts, (splitWs t).length = 1) :
    (splitWs (joinSpace ts)).length = ts.length := by
  induction ts using joinSpace.induct with
  | case1 => simp [joinSpace, splitWs, splitWsAux]
  | case2 t => simpa [joinSpace] using h t (by simp)
  | case3 t u us ih =>
    rw [joinSpace_cons _ _ us]
    have h1 := h t (by simp)
    have h2 := ih (fun x hx => h x (by simp [hx]))
    simp only [splitWs] at h1 h2 ⊢
    rw [splitWsAux_append_space]
    simp only [List.length_append, h1, h2, List.length_cons]
    omega

/-! Lemmas about the float parser -/

theorem pyDigit_not_ws {c : Char} (h : pyDigit c) : ¬ pyWs c := by
  have hc : c ∈ ['0', '1', '2', '3', '4', '5', '6', '7', '8', '9'] := by
    simpa [pyDigit] using h
  fin_cases hc <;> simp [pyWs]

theorem pyDigit_ne_colon {c : Char} (h : pyDigit c) : c ≠ ':' := by
  have hc : c ∈ ['0', '1', '2', '3', '4', '5', '6', '7', '8', '9'] := by
    simpa [pyDigit] using h
  fin_cases hc <;> simp

/-- A successfully `float`-parsed (stripped) string is non-empty and
consists only of sign, point and digit characters. -/
theorem parseUnsigned_chars {s : List Char} {q : ℚ} (h : parseUnsigned s = some q) :
    s ≠ [] ∧ ∀ c ∈ s, c = '.' ∨ pyDigit c := by
  have hsplit := List.takeWhile_append_dropWhile (p := pyDigit) (l := s)
  unfold parseUnsigned at h
  split at h
  case _ heq =>
    split at h
    case _ => exact absurd h (by simp)
    case _ hip =>
      rw [heq, List.append_nil] at hsplit
      constructor
      · intro hs
        subst hs
        simp at hip
      · intro c hc
        rw [← hsplit] at hc
        exact Or.inr (List.mem_takeWhile_imp hc)
  case _ frac heq =>
    split at h
    case _ hfrac =>
      rw [heq] at hsplit
      constructor
      · intro hs
        rw [hs] at hsplit
        simp at hsplit
      · intro c hc
        rw [← hsplit] at hc
        rcases List.mem_append.mp hc with h1 | h2
        · exact Or.inr (List.mem_takeWhile_imp h1)
        · rcases List.mem_cons.mp h2 with rfl | h3
          · exact Or.inl rfl
          · exact Or.inr (List.all_eq_true.mp hfrac c h3)
    case _ => exact absurd h (by simp)
  case _ => exact absurd h (by simp)

/-- A successfully `float`-parsed token has a non-empty stripped core made
only of sign, point and digit characters. -/
theorem pyFloat_chars {t : List Char} {q : ℚ} (h : pyFloat t = some q) :
    pyStrip t ≠ [] ∧ ∀ c ∈ pyStrip t, c = '+' ∨ c = '-' ∨ c = '.' ∨ pyDigit c := by
  unfold pyFloat at h
  split at h
  case _ r heq =>
    obtain ⟨-, hch⟩ := parseUnsigned_chars h
    refine ⟨by simp [heq], ?_⟩
    intro c hc
    rw [heq] at hc
    rcases List.mem_cons.mp hc with rfl | hc'
    · exact Or.inl rfl
    · rcases hch c hc' with h1 | h2
      · exact Or.inr (Or.inr (Or.inl h1))
      · exact Or.inr (Or.inr (Or.inr h2))
  case _ r heq =>
    obtain ⟨q', hq'⟩ := Option.map_eq_some'.mp h
    obtain ⟨-, hch⟩ := parseUnsigned_chars hq'.1
    refine ⟨by simp [heq], ?_⟩
    intro c hc
    rw [heq] at hc
    rcases List.mem_cons.mp hc with rfl | hc'
    · exact Or.inr (Or.inl rfl)
    · rcases hch c hc' with h1 | h2
      · exact Or.inr (Or.inr (Or.inl h1))
      · exact Or.inr (Or.inr (Or.inr h2))
  case _ =>
    obtain ⟨hne, hch⟩ := parseUnsigned_chars h
    refine ⟨hne, ?_⟩
    intro c hc
    rcases hch c hc with h1 | h2
    · exact Or.inr (Or.inr (Or.inl h1))
    · exact Or.inr (Or.inr (Or.inr h2))

theorem pyFloat_strip_no_ws {t : List Char} {q : ℚ} (h : pyFloat t = some q) :
    ∀ c ∈ pyStrip t, ¬ pyWs c := by
  intro c hc
  rcases (pyFloat_chars h).2 c hc with rfl | rfl | rfl | hd
  · simp [pyWs]
  · simp [pyWs]
  · simp [pyWs]
  · exact pyDigit_not_ws hd

/-- A token containing a colon can never parse as a float. -/
theorem pyFloat_none_of_colon {t : List Char} (hc : ':' ∈ t) : pyFloat t = none := by
  cases hf : pyFloat t with
  | none => rfl
  | some q =>
    have hmem : ':' ∈ pyStrip t := mem_pyStrip_of_not_ws hc (by simp [pyWs])
    rcases (pyFloat_chars hf).2 ':' hmem with h1 | h1 | h1 | h1
    · exact absurd h1 (by decide)
    · exact absurd h1 (by decide)
    · exact absurd h1 (by decide)
    · exact absurd rfl (pyDigit_ne_colon h1)

/-! Lemmas about the sample-collection loop -/

theorem collectTimes_length {toks : List (List Char)} {ts : List ℚ}
    (h : collectTimes toks = some ts) : ts.length ≤ toks.length := by
  induction toks generalizing ts with
  | nil =>
    simp only [collectTimes, Option.some.injEq] at h
    subst h
    simp
  | cons t tl ih =>
    unfold collectTimes at h
    by_cases hd : t = ['-']
    · rw [if_pos hd] at h
      exact (ih h).trans (by simp)
    · rw [if_neg hd] at h
      cases hf : pyFloat t with
      | none => rw [hf] at h; exact absurd h (by simp)
      | some q =>
        rw [hf] at h
        cases hrec : collectTimes tl with
        | none => rw [hrec] at h; exact absurd h (by simp)
        | some qs =>
          rw [hrec] at h
          simp only [Option.some.injEq] at h
          subst h
          simpa using ih hrec

theorem collectTimes_tokens {toks : List (List Char)} {ts : List ℚ}
    (h : collectTimes toks = some ts) :
    ∀ t ∈ toks, t = ['-'] ∨ ∃ q, pyFloat t = some q := by
  induction toks generalizing ts with
  | nil => simp
  | cons t tl ih =>
    unfold collectTimes at h
    intro x hx
    by_cases hd : t = ['-']
    · rw [if_pos hd] at h
      rcases List.mem_cons.mp hx with rfl | hx'
      · exact Or.inl hd
      · exact ih h x hx'
    · rw [if_neg hd] at h
      cases hf : pyFloat t with
      | none => rw [hf] at h; exact absurd h (by simp)
      | some q =>
        rw [hf] at h
        cases hrec : collectTimes tl with
        | none => rw [hrec] at h; exact absurd h (by simp)
        | some qs =>
          rcases List.mem_cons.mp hx with rfl | hx'
          · exact Or.inr ⟨q, hf⟩
          · exact ih hrec x hx'

theorem collectTimes_none_of_bad {toks : List (List Char)} {t : List Char}
    (ht : t ∈ toks) (hd : t ≠ ['-']) (hf : pyFloat t = none) :
    collectTimes toks = none := by
  induction toks with
  | nil => simp at ht
  | cons u tl ih =>
    unfold collectTimes
    rcases List.mem_cons.mp ht with rfl | ht'
    · rw [if_neg hd, hf]
    · by_cases hu : u = ['-']
      · rw [if_pos hu]
        exact ih ht'
      · rw [if_neg hu]
        cases hfu : pyFloat u with
        | none => rfl
        | some q => rw [ih ht']

/-! Lemmas about the fold-based min, max, sum, last -/

theorem foldl_min_mem (x : ℚ) (xs : List ℚ) : xs.foldl Min.min x ∈ x :: xs := by
  induction xs generalizing x with
  | nil => simp
  | cons y ys ih =>
    simp only [List.foldl_cons]
    rcases min_choice x y with h' | h' <;> rw [h']
    · rcases List.mem_cons.mp (ih x) with h | h <;> simp [h]
    · rcases List.mem_cons.mp (ih y) with h | h <;> simp [h]

theorem foldl_min_le (x : ℚ) (xs : List ℚ) : ∀ y ∈ x :: xs, xs.foldl Min.min x ≤ y := by
  induction xs generalizing x with
  | nil =>
    intro y hy
    simp only [List.mem_cons, List.not_mem_nil, or_false] at hy
    subst hy
    simp
  | cons z zs ih =>
    intro y hy
    simp only [List.foldl_cons]
    rcases List.mem_cons.mp hy with rfl | hy'
    · exact (ih (Min.min y z) _ (by simp)).trans (min_le_left y z)
    · rcases List.mem_cons.mp hy' with rfl | hy'' 
      · exact (ih (Min.min x y) _ (by simp)).trans (min_le_right x y)
      · exact ih (Min.min x z) y (by simp [hy''])

theorem foldl_max_mem (x : ℚ) (xs : List ℚ) : xs.foldl Max.max x ∈ x :: xs := by
  induction xs generalizing x with
  | nil => simp
  | cons y ys ih =>
    simp only [List.foldl_cons]
    rcases max_choice x y with h' | h' <;> rw [h']
    · rcases List.mem_cons.mp (ih x) with h | h <;> simp [h]
    · rcases List.mem_cons.mp (ih y) with h | h <;> simp [h]

theorem foldl_max_ge (x : ℚ) (xs : List ℚ) : ∀ y ∈ x :: xs, y ≤ xs.foldl Max.max x := by
  induction xs generalizing x with
  | nil =>
    intro y hy
    simp only [List.mem_cons, List.not_mem_nil, or_false] at hy
    subst hy
    simp
  | cons z zs ih =>
    intro y hy
    simp only [List.foldl_cons]
    rcases List.mem_cons.mp hy with rfl | hy'
    · exact (le_max_left y z).trans (ih (Max.max y z) _ (by simp))
    · rcases List.mem_cons.mp hy' with rfl | hy'' 
      · exact (le_max_right x y).trans (ih (Max.max x y) _ (by simp))
      · exact ih (Max.max x z) y (by simp [hy''])

theorem foldl_add_eq_sum (xs : List ℚ) : xs.foldl (· + ·) 0 = xs.sum := by
  rw [List.sum_eq_foldl]

/-! Destructuring a successful parse -/

/-- Anatomy of a successful `parse_verbose`: the line split into exactly two
pieces, the token list collected into samples, and every field the record
carries. -/
theorem parse_verbose_some {line : List Char} {r : ProbeResult}
    (h : parse_verbose line = some r) :
    ∃ host pings times,
      splitColon line = [host, pings] ∧
      collectTimes (splitSpace (pyStrip pings)) = some times ∧
      r = { host := pyStrip host
            cnt := (splitSpace (pyStrip pings)).length
            loss := if (splitSpace (pyStrip pings)).length - times.length ≠ 0
                    then (((splitSpace (pyStrip pings)).length - times.length : Nat) : ℚ)
                         / (((splitSpace (pyStrip pings)).length : Nat) : ℚ)
                    else 0
            data := times
            min := match times with | [] => none | x :: xs => some (xs.foldl Min.min x)
            max := match times with | [] => none | x :: xs => some (xs.foldl Max.max x)
            avg := match times with
                   | [] => none
                   | _ :: _ => some (times.foldl (· + ·) 0 / (times.length : ℚ))
            last := times.getLast? } := by
  unfold parse_verbose at h
  split at h
  case _ host pings heq =>
    unfold buildRecord at h
    split at h
    case _ => exact absurd h (by simp)
    case _ times htimes =>
      simp only [Option.some.injEq] at h
      exact ⟨host, pings, times, heq, htimes, h.symm⟩
  case _ => exact absurd h (by simp)

/-! Claim theorems about the line parser -/

/-- Claim C1: For every output line the parser accepts, the record satisfies
`loss = (count - len(samples)) / count` with `count > 0` (so the "otherwise"
branch of the claim is vacuous: an accepted line always has at least one
token), `loss` lies in `[0, 1]`, and `count` equals the number of
whitespace-separated tokens of the part of the line after the separator
(sentinel tokens included; samples exclude them). -/
theorem claim_c1_loss_invariant (line : List Char) (r : ProbeResult)
    (h : parse_verbose line = some r) :
    0 < r.cnt ∧
    r.loss = ((r.cnt : ℚ) - (r.data.length : ℚ)) / (r.cnt : ℚ) ∧
    0 ≤ r.loss ∧ r.loss ≤ 1 ∧
    ∃ host pings, splitColon line = [host, pings] ∧ r.cnt = (splitWs pings).length := by
  obtain ⟨host, pings, times, heq, htimes, hr⟩ := parse_verbose_some h
  subst hr
  simp only
  have hlen : times.length ≤ (splitSpace (pyStrip pings)).length := collectTimes_length htimes
  have hpos : 0 < (splitSpace (pyStrip pings)).length :=
    List.length_pos.mpr (splitSpace_ne_nil _)
  have hq : (0 : ℚ) < (((splitSpace (pyStrip pings)).length : Nat) : ℚ) := by
    exact_mod_cast hpos
  refine ⟨hpos, ?_, ?_, ?_, host, pings, heq, ?_⟩
  · by_cases hl : (splitSpace (pyStrip pings)).length - times.length = 0
    · rw [if_neg (fun hc => hc hl)]
      have hexact : (splitSpace (pyStrip pings)).length = times.length := by omega
      rw [hexact, sub_self, zero_div]
    · rw [if_pos hl, Nat.cast_sub hlen]
  · by_cases hl : (splitSpace (pyStrip pings)).length - times.length = 0
    · rw [if_neg (fun hc => hc hl)]
    · rw [if_pos hl]
      positivity
  · by_cases hl : (splitSpace (pyStrip pings)).length - times.length = 0
    · rw [if_neg (fun hc => hc hl)]
      norm_num
    · rw [if_pos hl, div_le_one hq]
      exact_mod_cast Nat.sub_le _ _
  · conv_rhs => rw [← splitWs_pyStrip pings, ← joinSpace_splitSpace (pyStrip pings)]
    refine (splitWs_joinSpace_length _ ?_).symm
    intro t ht
    rcases collectTimes_tokens htimes t ht with rfl | ⟨q, hqf⟩
    · decide
    · rw [splitWs_token t (pyFloat_chars hqf).1 (pyFloat_strip_no_ws hqf)]
      rfl

/-- Claim C3: The parser is total: it returns a record or `none` (a raised
exception is impossible, as the whole body is wrapped in `except`); in
particular a line not containing the `" : "` separator yields `none`. -/
theorem claim_c3_no_separator :
    (∀ line, parse_verbose line = none ∨ ∃ r, parse_verbose line = some r) ∧
    ∀ line, ¬ sepL <:+: line → parse_verbose line = none := by
  constructor
  · intro line
    cases h : parse_verbose line with
    | none => exact Or.inl rfl
    | some r => exact Or.inr ⟨r, rfl⟩
  · intro line h
    unfold parse_verbose
    rw [splitColon_no_sep line h]

/-- Claim C10: Every accepted line yields `count ≥ 1` and
`len(samples) ≤ count`, so the loss division never divides by zero. -/
theorem claim_c10_count_positive (line : List Char) (r : ProbeResult)
    (h : parse_verbose line = some r) : 1 ≤ r.cnt ∧ r.data.length ≤ r.cnt := by
  obtain ⟨host, pings, times, heq, htimes, hr⟩ := parse_verbose_some h
  subst hr
  exact ⟨List.length_pos.mpr (splitSpace_ne_nil _), collectTimes_length htimes⟩

/-- Claim C4: When the sample list is non-empty the record carries `min`
(a least sample), `max` (a greatest sample), `avg` (the arithmetic mean)
and `last` (the final sample in token order); when it is empty all four
fields are absent. -/
theorem claim_c4_statistics (line : List Char) (r : ProbeResult)
    (h : parse_verbose line = some r) :
    (r.data = [] → r.min = none ∧ r.max = none ∧ r.avg = none ∧ r.last = none) ∧
    (r.data ≠ [] →
      (∃ m, r.min = some m ∧ m ∈ r.data ∧ ∀ x ∈ r.data, m ≤ x) ∧
      (∃ M, r.max = some M ∧ M ∈ r.data ∧ ∀ x ∈ r.data, x ≤ M) ∧
      r.avg = some (r.data.sum / (r.data.length : ℚ)) ∧
      (∃ l init, r.last = some l ∧ r.data = init ++ [l])) := by
  obtain ⟨host, pings, times, heq, htimes, hr⟩ := parse_verbose_some h
  subst hr
  constructor
  · intro hd
    simp only at hd
    subst hd
    simp
  · intro hd
    simp only at hd
    cases times with
    | nil => exact absurd rfl hd
    | cons x xs =>
      refine ⟨⟨xs.foldl Min.min x, rfl, foldl_min_mem x xs, foldl_min_le x xs⟩,
              ⟨xs.foldl Max.max x, rfl, foldl_max_mem x xs, foldl_max_ge x xs⟩, ?_, ?_⟩
      · simp only [foldl_add_eq_sum]
      · cases hlast : (x :: xs).getLast? with
        | none => simp at hlast
        | some l =>
          exact ⟨l, (x :: xs).dropLast, rfl,
            (List.dropLast_append_getLast? l (Option.mem_def.mpr hlast)).symm⟩

/-! Claim C2: split on the first separator occurrence -/

/-- The Line Parser as claim C2 describes it, with its tokenization amended
to single-space splitting: split at the FIRST occurrence of `" : "` (the
head of the full split; everything after the first occurrence is the
rejoined tail, as in Python `line.split(" : ", 1)`), trim the left side for
the host, trim the right side and split it on single spaces for the token
list, then build the record from those tokens. -/
def parse_first_sep (line : List Char) : Option ProbeResult :=
  match splitColon line with
  | [] => none
  | [_] => none
  | host :: p :: rest => buildRecord host (splitSpace (pyStrip (joinColon (p :: rest))))

/-- The Line Parser exactly as claim C2 is written: split at the first
occurrence of `" : "`, host from the trimmed left side, and the token list
from the right side, trimmed and split on whitespace (`str.split()`). -/
def parse_first_sep_ws (line : List Char) : Option ProbeResult :=
  match splitColon line with
  | [] => none
  | [_] => none
  | host :: p :: rest => buildRecord host (splitWs (pyStrip (joinColon (p :: rest))))

/-- Claim C2 counterexample: On `"h : 1.0  2.0"` (two spaces between the
tokens) the code rejects the line — `.split(" ")` produces an empty token
and `float("")` raises — while the claim's whitespace tokenization accepts
it with two samples.  So the parser does not tokenize by whitespace. -/
theorem claim_c2_counterexample :
    parse_verbose "h : 1.0  2.0".toList = none ∧
    parse_first_sep_ws "h : 1.0  2.0".toList =
      some { host := "h".toList, cnt := 2, loss := 0, data := [1, 2],
             min := some 1, max := some 2, avg := some (3 / 2), last := some 2 } := by
  constructor
  · decide
  · simp +decide [parse_first_sep_ws, splitColon, headCons, joinColon, splitWs, splitWsAux,
      pyStrip, pyWs, buildRecord, collectTimes, pyFloat, parseUnsigned, pyDigit,
      digitsToNat, digitVal, List.dropWhile_cons, List.takeWhile_cons, ProbeResult.mk.injEq]
    norm_num

/-- Claim C2, amended: For every line containing the separator at least
once, the code behaves exactly like the first-occurrence parser with
single-space tokenization: with one occurrence the two agree by
construction, and with several occurrences both reject the line (the code
because the tuple unpacking fails, the first-occurrence parser because the
leftover `":"` token of the right side can never parse as a float). -/
theorem claim_c2_first_occurrence (line : List Char) (h : sepL <:+: line) :
    parse_verbose line = parse_first_sep line := by
  have h2 := splitColon_sep_length line h
  cases hsc : splitColon line with
  | nil => exact absurd hsc (splitColon_ne_nil line)
  | cons a ts =>
    cases ts with
    | nil =>
      rw [hsc] at h2
      simp at h2
    | cons b ts' =>
      cases ts' with
      | nil =>
        unfold parse_verbose parse_first_sep
        rw [hsc]
        rfl
      | cons c' ts'' =>
        have hcolon : ':' ∈ joinColon (b :: c' :: ts'') := by
          rw [joinColon_cons _ _ (by simp)]
          simp
        have hmem : ':' ∈ pyStrip (joinColon (b :: c' :: ts'')) :=
          mem_pyStrip_of_not_ws hcolon (by simp [pyWs])
        have hjs := joinSpace_splitSpace (pyStrip (joinColon (b :: c' :: ts'')))
        rw [← hjs] at hmem
        rcases mem_joinSpace hmem with habs | ⟨tok, htok, hcol⟩
        · exact absurd habs (by decide)
        · have hne : tok ≠ ['-'] := by
            intro ht
            rw [ht] at hcol
            simp at hcol
          have hct := collectTimes_none_of_bad htok hne (pyFloat_none_of_colon hcol)
          have hL : parse_verbose line = none := by
            unfold parse_verbose
            rw [hsc]
          have hR : parse_first_sep line = none := by
            unfold parse_first_sep
            rw [hsc]
            show buildRecord a (splitSpace (pyStrip (joinColon (b :: c' :: ts'')))) = none
            unfold buildRecord
            rw [hct]
          rw [hL, hR]

/-! Witnesses for the parser claims -/

def lineC1 : List Char := "h : - 2 -".toList

def recC1 : ProbeResult :=
  { host := "h".toList, cnt := 3, loss := 2 / 3, data := [2],
    min := some 2, max := some 2, avg := some 2, last := some 2 }

theorem claim_c1_witness :
    0 < recC1.cnt ∧
    recC1.loss = ((recC1.cnt : ℚ) - (recC1.data.length : ℚ)) / (recC1.cnt : ℚ) ∧
    0 ≤ recC1.loss ∧ recC1.loss ≤ 1 ∧
    ∃ host pings, splitColon lineC1 = [host, pings] ∧ recC1.cnt = (splitWs pings).length :=
  claim_c1_loss_invariant lineC1 recC1 (by
    simp +decide [lineC1, recC1, parse_verbose, splitColon, headCons, splitSpace, pyStrip,
      pyWs, buildRecord, collectTimes, pyFloat, parseUnsigned, pyDigit, digitsToNat,
      digitVal, List.dropWhile_cons, List.takeWhile_cons, ProbeResult.mk.injEq])

theorem claim_c2_witness :
    sepL <:+: "w : 4".toList ∧
    parse_verbose "w : 4".toList = parse_first_sep "w : 4".toList :=
  ⟨by decide, claim_c2_first_occurrence "w : 4".toList (by decide)⟩

theorem claim_c3_witness :
    ¬ sepL <:+: "noseparator".toList ∧ parse_verbose "noseparator".toList = none :=
  ⟨by decide, claim_c3_no_separator.2 "noseparator".toList (by decide)⟩

def lineC4 : List Char := "p : 7 -".toList

def recC4 : ProbeResult :=
  { host := "p".toList, cnt := 2, loss := 1 / 2, data := [7],
    min := some 7, max := some 7, avg := some 7, last := some 7 }

theorem claim_c4_witness :
    (recC4.data = [] → recC4.min = none ∧ recC4.max = none ∧ recC4.avg = none ∧
      recC4.last = none) ∧
    (recC4.data ≠ [] →
      (∃ m, recC4.min = some m ∧ m ∈ recC4.data ∧ ∀ x ∈ recC4.data, m ≤ x) ∧
      (∃ M, recC4.max = some M ∧ M ∈ recC4.data ∧ ∀ x ∈ recC4.data, x ≤ M) ∧
      recC4.avg = some (recC4.data.sum / (recC4.data.length : ℚ)) ∧
      (∃ l init, recC4.last = some l ∧ recC4.data = init ++ [l])) :=
  claim_c4_statistics lineC4 recC4 (by
    simp +decide [lineC4, recC4, parse_verbose, splitColon, headCons, splitSpace, pyStrip,
      pyWs, buildRecord, collectTimes, pyFloat, parseUnsigned, pyDigit, digitsToNat,
      digitVal, List.dropWhile_cons, List.takeWhile_cons, ProbeResult.mk.injEq])

def lineC10 : List Char := "q : 5".toList

def recC10 : ProbeResult :=
  { host := "q".toList, cnt := 1, loss := 0, data := [5],
    min := some 5, max := some 5, avg := some 5, last := some 5 }

theorem claim_c10_witness : 1 ≤ recC10.cnt ∧ recC10.data.length ≤ recC10.cnt :=
  claim_c10_count_positive lineC10 recC10 (by
    simp +decide [lineC10, recC10, parse_verbose, splitColon, headCons, splitSpace, pyStrip,
      pyWs, buildRecord, collectTimes, pyFloat, parseUnsigned, pyDigit, digitsToNat,
      digitVal, List.dropWhile_cons, List.takeWhile_cons, ProbeResult.mk.injEq])

/-! Host resolution (`FPingBase.hosts_args`) -/

/-- A configured host entry: either a bare address string or a structured
record carrying at least a `host` field, plus display metadata (name,
color, ...) that the probe invocation ignores. -/
inductive HostEntry where
  | plain (addr : String)
  | record (host : String) (meta : List (String × String))
deriving DecidableEq

/-- What the first loop of `hosts_args` extracts from one entry:
`row["host"]` for a dict entry, the entry itself for a string entry. -/
def hostOf : HostEntry → String
  | .plain a => a
  | .record h _ => h

/-- The second loop of `hosts_args`: append each address to the output only
if it has not been appended yet (`if each not in dedupe`). -/
def dedupeLoop : List String → List String → List String
  | [], acc => acc
  | x :: rest, acc =>
    if x ∈ acc then dedupeLoop rest acc else dedupeLoop rest (acc ++ [x])

/-- Embedding of `FPingBase.hosts_args`: extract the addresses, then
dedupe preserving order. -/
def hosts_args (hosts : List HostEntry) : List String :=
  dedupeLoop (hosts.map hostOf) []

/-- Deduplication as the spec words it, for comparison with the code's
loop: keep the first occurrence of each distinct address in first-seen
order (every later duplicate of the head is dropped before recursing). -/
def specDedup : List String → List String
  | [] => []
  | x :: xs => x :: specDedup (xs.filter (fun y => y != x))
termination_by l => l.length
decreasing_by
  simp only [List.length_cons]
  exact Nat.lt_succ_of_le (List.length_filter_le _ _)

theorem dedupeLoop_eq (l : List String) :
    ∀ acc, dedupeLoop l acc = acc ++ specDedup (l.filter (fun y => decide (y ∉ acc))) := by
  induction l with
  | nil => intro acc; simp [dedupeLoop, specDedup]
  | cons x rest ih =>
    intro acc
    by_cases hx : x ∈ acc
    · rw [dedupeLoop, if_pos hx, ih, List.filter_cons]
      simp [hx]
    · rw [dedupeLoop, if_neg hx, ih, List.filter_cons]
      have hdec : decide (x ∉ acc) = true := by simp [hx]
      rw [hdec]
      simp only [if_true]
      rw [specDedup]
      have hf : rest.filter (fun y => decide (y ∉ acc ++ [x])) =
          (rest.filter (fun y => decide (y ∉ acc))).filter (fun y => y != x) := by
        rw [List.filter_filter]
        apply List.filter_congr
        intro a _
        by_cases h1 : a ∈ acc <;> by_cases h2 : a = x <;> simp [h1, h2]
      rw [hf, List.append_assoc]
      rfl

theorem mem_specDedup (l : List String) (a : String) : a ∈ specDedup l ↔ a ∈ l := by
  induction l using specDedup.induct with
  | case1 => simp [specDedup]
  | case2 x xs ih =>
    rw [specDedup]
    simp only [List.mem_cons]
    constructor
    · rintro (rfl | h)
      · exact Or.inl rfl
      · exact Or.inr (List.mem_of_mem_filter (ih.mp h))
    · rintro (rfl | h)
      · exact Or.inl rfl
      · by_cases hax : a = x
        · exact Or.inl hax
        · exact Or.inr (ih.mpr (List.mem_filter.mpr ⟨h, by simp [hax]⟩))

theorem specDedup_nodup (l : List String) : (specDedup l).Nodup := by
  induction l using specDedup.induct with
  | case1 => simp [specDedup]
  | case2 x xs ih =>
    rw [specDedup]
    refine List.nodup_cons.mpr ⟨?_, ih⟩
    intro hx
    have h2 := (List.mem_filter.mp ((mem_specDedup _ _).mp hx)).2
    simp at h2

/-- Claim C6: `hosts_args` returns the extracted addresses deduplicated
keeping the first occurrence of each distinct address in first-seen order
(the spec-worded `specDedup`); the output has no duplicates and exactly the
input addresses as members; empty input yields the empty list. -/
theorem claim_c6_hosts_args :
    (∀ hosts : List HostEntry,
      hosts_args hosts = specDedup (hosts.map hostOf) ∧
      (hosts_args hosts).Nodup ∧
      ∀ a, a ∈ hosts_args hosts ↔ a ∈ hosts.map hostOf) ∧
    hosts_args [] = [] := by
  have hmain : ∀ hosts : List HostEntry,
      hosts_args hosts = specDedup (hosts.map hostOf) := by
    intro hosts
    unfold hosts_args
    rw [dedupeLoop_eq]
    simp
  refine ⟨fun hosts => ⟨hmain hosts, ?_, ?_⟩, by simp [hosts_args, dedupeLoop]⟩
  · rw [hmain]
    exact specDedup_nodup _
  · intro a
    rw [hmain]
    exact mem_specDedup _ a

example : hosts_args [.plain "a", .record "b" [("color", "red")], .plain "a", .plain "c"]
    = ["a", "b", "c"] := by decide

/-! Command construction (`FPingBase._run_proc`, argument part) -/

/-- The argument list `_run_proc` builds before appending the hosts: the
command, then always the unreachable (`-u`), count (`-C%d`), period
(`-p%d`) and elapsed-time (`-e`) flags, and quiet mode (`-q`) appended
exactly when the detected fping version is 5. -/
def fping_flags (command : String) (count period version : Nat) : List String :=
  if version = 5 then
    [command, "-u", "-C" ++ toString count, "-p" ++ toString period, "-e", "-q"]
  else
    [command, "-u", "-C" ++ toString count, "-p" ++ toString period, "-e"]

/-- Embedding of the argument construction of `FPingBase._run_proc`: the
flag list followed by the resolved host addresses, in resolved order
(`args.extend(self.hosts_args())`). -/
def run_proc_args (command : String) (count period version : Nat)
    (hosts : List HostEntry) : List String :=
  fping_flags command count period version ++ hosts_args hosts

theorem dashC_ne_dashq (s : String) : "-C" ++ s ≠ "-q" := by
  intro h
  have h2 := congrArg String.data h
  rw [String.data_append] at h2
  simp only [show ("-C" : String).data = ['-', 'C'] from rfl,
    show ("-q" : String).data = ['-', 'q'] from rfl, List.cons_append, List.nil_append,
    List.cons.injEq] at h2
  exact absurd h2.2.1 (by decide)

theorem dashp_ne_dashq (s : String) : "-p" ++ s ≠ "-q" := by
  intro h
  have h2 := congrArg String.data h
  rw [String.data_append] at h2
  simp only [show ("-p" : String).data = ['-', 'p'] from rfl,
    show ("-q" : String).data = ['-', 'q'] from rfl, List.cons_append, List.nil_append,
    List.cons.injEq] at h2
  exact absurd h2.2.1 (by decide)

/-- Claim C5: For every count, period, dialect version and host list, the
built argument list contains the unreachable, count, period and
elapsed-time flags; it contains the quiet flag `-q` (anywhere among the
flags) iff the detected version is 5; and the resolved host addresses are
appended after all flags, in resolved order.  The hypothesis `command ≠
"-q"` rules out the pathological configuration whose command string is
itself `-q`. -/
theorem claim_c5_flags (command : String) (count period version : Nat)
    (hosts : List HostEntry) (hcmd : command ≠ "-q") :
    "-u" ∈ fping_flags command count period version ∧
    ("-C" ++ toString count) ∈ fping_flags command count period version ∧
    ("-p" ++ toString period) ∈ fping_flags command count period version ∧
    "-e" ∈ fping_flags command count period version ∧
    ("-q" ∈ fping_flags command count period version ↔ version = 5) ∧
    run_proc_args command count period version hosts
      = fping_flags command count period version ++ hosts_args hosts := by
  by_cases hv : version = 5 <;>
    refine ⟨?_, ?_, ?_, ?_, ?_, rfl⟩ <;>
    simp [fping_flags, hv, Ne.symm hcmd, Ne.symm (dashC_ne_dashq (toString count)),
      Ne.symm (dashp_ne_dashq (toString period))]

theorem claim_c5_witness :
    ("fping" : String) ≠ "-q" ∧
    ("-u" ∈ fping_flags "fping" 5 20 5 ∧
     ("-C" ++ toString 5) ∈ fping_flags "fping" 5 20 5 ∧
     ("-p" ++ toString 20) ∈ fping_flags "fping" 5 20 5 ∧
     "-e" ∈ fping_flags "fping" 5 20 5 ∧
     ("-q" ∈ fping_flags "fping" 5 20 5 ↔ (5 : Nat) = 5) ∧
     run_proc_args "fping" 5 20 5 [.plain "a"]
       = fping_flags "fping" 5 20 5 ++ hosts_args [.plain "a"]) := by
  refine ⟨by decide, ?_⟩
  have h := claim_c5_flags "fping" 5 20 5 [.plain "a"] (by decide)
  refine ⟨h.1, h.2.1, h.2.2.1, h.2.2.2.1, h.2.2.2.2.1, ?_⟩
  have h6 := h.2.2.2.2.2
  rw [h6]

/-! Process running (`FPingBase._run_proc`) and the probe cycle -/

inductive LogLevel where
  | debug
  | info
  | warning
  | error
  | critical
deriving DecidableEq

inductive RunErr where
  | commandNotFound
deriving DecidableEq

/-- Behaviour of one external fping invocation as `_run_proc` can observe
it: the process runs, emitting `lines` and exiting with `exitcode`; or the
launch raises `FileNotFoundError`; or some other exception is raised while
running or reading the output. -/
inductive ProcBehavior where
  | ok (lines : List (List Char)) (exitcode : Int)
  | notFound
  | failure

/-- Return value of a runner: the result (or the exception it re-raises,
as `Except.error`) together with the levels of the log messages emitted. -/
structure RunOutcome (α : Type) where
  result : Except RunErr α
  logs : List LogLevel

/-- Embedding of `FPingBase._run_proc` (output-processing part; the
argument construction is `run_proc_args`): parse every line and keep the
successful records in emission order; after the stream ends, log a warning
iff the exit code is non-zero, without touching the data; on
`FileNotFoundError` log critical and re-raise; on any other exception log
the error and return the empty list.  The initial debug log is the
command-line debug message. -/
def run_proc : ProcBehavior → RunOutcome (List ProbeResult)
  | .ok lines rc =>
    { result := .ok (lines.filterMap parse_verbose)
      logs := if rc ≠ 0 then [.debug, .warning] else [.debug] }
  | .notFound => { result := .error .commandNotFound, logs := [.debug, .critical] }
  | .failure => { result := .ok [], logs := [.debug, .error] }

/-- Embedding of `FPing.probe`: run the process; the list comprehension
dropping `None` entries is the identity here because `_run_proc` only
appends truthy parse results; return the message (its `data` field) only
when non-empty, otherwise log a warning and return `None`. -/
def probe (b : ProcBehavior) : RunOutcome (Option (List ProbeResult)) :=
  match run_proc b with
  | ⟨Except.error e, lg⟩ => ⟨Except.error e, lg⟩
  | ⟨Except.ok data, lg⟩ =>
    if data = [] then ⟨Except.ok none, lg ++ [LogLevel.warning]⟩
    else ⟨Except.ok (some data), lg⟩

/-- Claim C7: A cycle whose set of successfully parsed records is empty
yields the no-message outcome `none` with a warning logged; and no cycle
ever returns a message with an empty data list. -/
theorem claim_c7_no_data :
    (∀ (lines : List (List Char)) (rc : Int),
      lines.filterMap parse_verbose = [] →
      (probe (.ok lines rc)).result = Except.ok none ∧
      LogLevel.warning ∈ (probe (.ok lines rc)).logs) ∧
    ∀ b, (probe b).result ≠ Except.ok (some []) := by
  constructor
  · intro lines rc h
    unfold probe run_proc
    simp [h]
  · intro b
    cases b with
    | ok lines rc =>
      unfold probe run_proc
      by_cases h : lines.filterMap parse_verbose = [] <;> simp [h]
    | notFound => unfold probe run_proc; simp
    | failure => unfold probe run_proc; simp

theorem claim_c7_witness :
    ["garbage".toList].filterMap parse_verbose = [] ∧
    ((probe (.ok ["garbage".toList] 0)).result = Except.ok none ∧
      LogLevel.warning ∈ (probe (.ok ["garbage".toList] 0)).logs) :=
  ⟨by decide, claim_c7_no_data.1 ["garbage".toList] 0 (by decide)⟩

/-- Claim C8: A non-zero exit code does not discard the records already
parsed: the result is the same as with exit code zero (all parsed lines,
in order), and the non-zero exit is recorded as a warning log only. -/
theorem claim_c8_nonzero_exit (lines : List (List Char)) (rc : Int) (h : rc ≠ 0) :
    (run_proc (.ok lines rc)).result = Except.ok (lines.filterMap parse_verbose) ∧
    (run_proc (.ok lines rc)).result = (run_proc (.ok lines 0)).result ∧
    LogLevel.warning ∈ (run_proc (.ok lines rc)).logs := by
  unfold run_proc
  simp [h]

theorem claim_c8_witness :
    (1 : Int) ≠ 0 ∧
    ((run_proc (.ok ["w : 3".toList] 1)).result
        = Except.ok (["w : 3".toList].filterMap parse_verbose) ∧
     (run_proc (.ok ["w : 3".toList] 1)).result
        = (run_proc (.ok ["w : 3".toList] 0)).result ∧
     LogLevel.warning ∈ (run_proc (.ok ["w : 3".toList] 1)).logs) :=
  ⟨by decide, claim_c8_nonzero_exit ["w : 3".toList] 1 (by decide)⟩

/-! Dialect detection (`FPingBase.detect_fping_version`) -/

/-- What the `fping -v` invocation inside `detect_fping_version` does:
produce decoded output text, raise `FileNotFoundError`, or fail in any
other way (unexpected output is NOT a failure: any text is classified). -/
inductive VersionProbe where
  | output (text : List Char)
  | notFound
  | failure

/-- The marker whose presence in the version output selects the modern
dialect. -/
def marker5 : List Char := "fping: Version 5".toList

/-- Embedding of `FPingBase.detect_fping_version`: classify the captured
output as version 5 iff it contains the marker (Python's substring `in`),
else default to 4; on `FileNotFoundError` log critical and re-raise; on
any other exception log the error and default to 4. -/
def detect_fping_version : VersionProbe → RunOutcome Nat
  | .output t => { result := Except.ok (if marker5 <:+: t then 5 else 4), logs := [] }
  | .notFound => { result := Except.error .commandNotFound, logs := [.critical] }
  | .failure => { result := Except.ok 4, logs := [.error] }

/-- Claim C9: Detection classifies as Modern (5) iff the captured output
contains the version-5 marker and as Legacy (4) otherwise; a missing
binary is fatal (the exception propagates, after a critical log); any
other detection failure logs an error and defaults to Legacy (4). -/
theorem claim_c9_dialect :
    (∀ t, ((detect_fping_version (.output t)).result = Except.ok 5 ↔ marker5 <:+: t) ∧
          (¬ marker5 <:+: t → (detect_fping_version (.output t)).result = Except.ok 4)) ∧
    (detect_fping_version .notFound).result = Except.error .commandNotFound ∧
    LogLevel.critical ∈ (detect_fping_version .notFound).logs ∧
    (detect_fping_version .failure).result = Except.ok 4 ∧
    LogLevel.error ∈ (detect_fping_version .failure).logs := by
  refine ⟨?_, rfl, by simp [detect_fping_version], rfl, by simp [detect_fping_version]⟩
  intro t
  constructor
  · unfold detect_fping_version
    by_cases hin : marker5 <:+: t
    · simp [hin]
    · simp [hin]
  · intro hin
    unfold detect_fping_version
    simp [hin]

theorem claim_c9_witness :
    (marker5 <:+: "fping: Version 5.1".toList ∧
      (detect_fping_version (.output "fping: Version 5.1".toList)).result
        = Except.ok 5) ∧
    (¬ marker5 <:+: "fping: Version 4.2".toList ∧
      (detect_fping_version (.output "fping: Version 4.2".toList)).result
        = Except.ok 4) :=
  ⟨⟨by decide, ((claim_c9_dialect.1 "fping: Version 5.1".toList).1).mpr (by decide)⟩,
   ⟨by decide, (claim_c9_dialect.1 "fping: Version 4.2".toList).2 (by decide)⟩⟩
